import Mathlib

/-
  Verification development for the conflict-bot repository.

  The repository is a GitHub Action that, for a subject pull request,
  speculatively merges every other open pull request's branch and recovers
  the conflicting line numbers.  The definitions below are shallow
  embeddings of the JavaScript source:

  * `extractConflictingLineNumbers`   — the block-anchor line recoverer
    (src/unnamed/part_001, function of the same name);
  * `extractConflictingLineNumbersPositional` — the positional recoverer
    (src/unnamed/part_000, function `extractConflictingLineNumbers`);
  * `formatLineNumbers`               — src/index.utils.js;
  * `checkForConflicts`, `getConflictArrayData`, `requestReviews`,
    `requestReviewsInConflictingPRs`, `attemptMerge`, `setup`, `cleanup`
    — src/unnamed/part_001.

  JavaScript primitives are modelled by structurally recursive Lean
  helpers: `strStartsWith` models `String.prototype.startsWith`,
  `splitLines` models `split("\n")`, `indexOfStr` models
  `Array.prototype.indexOf`, `jsSetDedup` models `[...new Set(xs)]`.
-/

/-- Models JavaScript `s.startsWith(pre)` (structural recursion over the
character lists so that concrete instances reduce in the kernel). -/
def strStartsWith (s pre : String) : Bool :=
  pre.toList.isPrefixOf s.toList

/-- Character-list splitter underlying `splitLines`: splits on `'\n'`,
always yielding one (possibly empty) piece more than the number of
newlines, exactly like JavaScript `split("\n")`. -/
def splitLinesChar : List Char → List (List Char)
  | [] => [[]]
  | c :: cs =>
    let rest := splitLinesChar cs
    if c = '\n' then [] :: rest
    else
      match rest with
      | [] => [[c]]
      | r :: rs => (c :: r) :: rs

/-- Models JavaScript `content.split("\n")`. -/
def splitLines (s : String) : List String :=
  (splitLinesChar s.toList).map fun l => ⟨l⟩

/-- A line is one of the three conflict-markup delimiters recognised by the
source: the checks are literally `line.startsWith("<<<<<<< HEAD")`,
`line.startsWith("=======")` and `line.startsWith(">>>>>>>")`. -/
def isMarkerLine (l : String) : Bool :=
  strStartsWith l "<<<<<<< HEAD" || strStartsWith l "=======" ||
    strStartsWith l ">>>>>>>"

/-- Models JavaScript `arr.indexOf(target)` on an array of strings:
first index of `target`, `none` when absent. -/
def indexOfStr : List String → String → Option Nat
  | [], _ => none
  | a :: l, target =>
    if a = target then some 0 else (indexOfStr l target).map (· + 1)

/-- Models the `oursBlock.every((ourLine, index) => ourLine ===
linesFromNormalFile[startIndex + index])` check of
src/unnamed/part_001 `extractConflictingLineNumbers`, with the index
threaded explicitly. -/
def blockMatchesAux (normal : List String) : Nat → List String → Bool
  | _, [] => true
  | i, b :: bs => (normal[i]? == some b) && blockMatchesAux normal (i + 1) bs

/-- The whole-block verbatim match against the pristine file starting at
`startIndex`. -/
def blockMatches (normal : List String) (startIndex : Nat)
    (block : List String) : Bool :=
  blockMatchesAux normal startIndex block

/-- The contribution of one collected "ours" block, exactly as computed at
the `=======` branch of src/unnamed/part_001
`extractConflictingLineNumbers`: anchor the block's first line with
`indexOf` (an empty block contributes nothing, since in JavaScript
`indexOf(undefined)` is `-1`), verify the block, and on success push the
1-indexed pristine line numbers spanned by the block. -/
def oursContribution (normal : List String) (block : List String) : List Nat :=
  match block with
  | [] => []
  | b0 :: _ =>
    match indexOfStr normal b0 with
    | none => []
    | some startIndex =>
      if blockMatches normal startIndex block then
        (List.range block.length).map fun i => startIndex + i + 1
      else []

/-- Loop state of the block-anchor extractor: the accumulated
`conflictLines`, the current `oursBlock`, and the `inOursBlock` flag. -/
structure ExtractState where
  conflictLines : List Nat
  oursBlock : List String
  inOursBlock : Bool
deriving Repr, DecidableEq

/-- One iteration of the line loop of src/unnamed/part_001
`extractConflictingLineNumbers`.  Note the source's quirks are preserved:
`oursBlock` is *not* cleared on `=======` (only on `>>>>>>>` and on a new
`<<<<<<< HEAD`), and `inOursBlock` is untouched by `>>>>>>>`. -/
def extractStep (normal : List String) (st : ExtractState)
    (lineFromConflictFile : String) : ExtractState :=
  if strStartsWith lineFromConflictFile "<<<<<<< HEAD" then
    { st with inOursBlock := true, oursBlock := [] }
  else if strStartsWith lineFromConflictFile "=======" then
    { st with inOursBlock := false,
              conflictLines :=
                st.conflictLines ++ oursContribution normal st.oursBlock }
  else if strStartsWith lineFromConflictFile ">>>>>>>" then
    { st with oursBlock := [] }
  else if st.inOursBlock then
    { st with oursBlock := st.oursBlock ++ [lineFromConflictFile] }
  else st

/-- The block-anchor extractor on pre-split line lists. -/
def extract1Core (linesFromNormalFile linesFromConflictFile : List String) :
    List Nat :=
  (linesFromConflictFile.foldl (extractStep linesFromNormalFile)
    ⟨[], [], false⟩).conflictLines

/-- src/unnamed/part_001 `extractConflictingLineNumbers`: the first
argument is the pristine content (`git show` of the candidate's temporary
ref), the second the working-tree content with conflict markup. -/
def extractConflictingLineNumbers
    (fileContentWithoutConflicts fileContentWithConflicts : String) :
    List Nat :=
  extract1Core (splitLines fileContentWithoutConflicts)
    (splitLines fileContentWithConflicts)

/-- The per-conflict contribution of the positional extractor
(src/unnamed/part_000), exactly the `oursBlock.forEach` at the `>>>>>>>`
branch: for each index with a line on both sides where the two sides
differ, report `conflictStartLine + index`.  A position present on one
side only (`theirsBlock[index] === undefined`) is not reported. -/
def positionalContribution (conflictStartLine : Nat)
    (oursBlock theirsBlock : List String) : List Nat :=
  oursBlock.enum.filterMap fun p =>
    match theirsBlock[p.1]? with
    | none => none
    | some theirLine =>
      if p.2 ≠ theirLine then some (conflictStartLine + p.1) else none

/-- Loop state of the positional extractor of src/unnamed/part_000. -/
structure PositionalState where
  lineCounter : Nat
  conflictLines : List Nat
  oursBlock : List String
  theirsBlock : List String
  inOursBlock : Bool
  inTheirsBlock : Bool
  conflictStartLine : Nat
deriving Repr, DecidableEq

/-- One iteration of the line loop of src/unnamed/part_000
`extractConflictingLineNumbers`.  The counter is incremented only outside
conflict blocks (so it does count the `<<<<<<< HEAD` line itself), and the
source's `lineCounter += theirsBlock.length` at the `>>>>>>>` branch is a
no-op because `theirsBlock` has just been reset to `[]`. -/
def positionalStep (st : PositionalState) (line : String) : PositionalState :=
  let st :=
    if !st.inOursBlock && !st.inTheirsBlock then
      { st with lineCounter := st.lineCounter + 1 }
    else st
  if strStartsWith line "<<<<<<< HEAD" then
    { st with inOursBlock := true, conflictStartLine := st.lineCounter }
  else if strStartsWith line "=======" then
    { st with inOursBlock := false, inTheirsBlock := true }
  else if strStartsWith line ">>>>>>>" then
    { st with inTheirsBlock := false,
              conflictLines :=
                st.conflictLines ++
                  positionalContribution st.conflictStartLine st.oursBlock
                    st.theirsBlock,
              oursBlock := [], theirsBlock := [] }
  else if st.inOursBlock then
    { st with oursBlock := st.oursBlock ++ [line] }
  else if st.inTheirsBlock then
    { st with theirsBlock := st.theirsBlock ++ [line] }
  else st

/-- The positional extractor on a pre-split line list. -/
def extract2Core (lines : List String) : List Nat :=
  (lines.foldl positionalStep ⟨0, [], [], [], false, false, 0⟩).conflictLines

/-- src/unnamed/part_000 `extractConflictingLineNumbers`: reads only the
conflicted working-tree content. -/
def extractConflictingLineNumbersPositional (fileContent : String) :
    List Nat :=
  extract2Core (splitLines fileContent)

/-- src/index.utils.js `formatLineNumbers`: flush the pending run
`[start..end]` into the formatted list — a `start...end` range when the
run has at least three numbers (`end - start >= 2`), otherwise the one or
two numbers individually. -/
def formatFlush (formatted : List String) (start e : Nat) : List String :=
  if e - start ≥ 2 then
    formatted ++ [toString start ++ "..." ++ toString e]
  else
    let f := formatted ++ [toString start]
    if e ≠ start then f ++ [toString e] else f

/-- One iteration of the `for` loop of `formatLineNumbers`: extend the
current run when the next number is consecutive, otherwise flush the run
and start a new one. -/
def formatStep : List String × Nat × Nat → Nat → List String × Nat × Nat
  | (formatted, start, e), n =>
    if n = e + 1 then (formatted, start, n)
    else (formatFlush formatted start e, n, n)

/-- src/index.utils.js `formatLineNumbers` on a (non-null) array. -/
def formatLineNumbers (numbers : List Nat) : String :=
  match numbers with
  | [] => ""
  | n0 :: rest =>
    let out := rest.foldl formatStep ([], n0, n0)
    String.intercalate ", " (formatFlush out.1 out.2.1 out.2.2)

/-- src/index.utils.js `formatLineNumbers` including the JavaScript
null/undefined guard `if (!numbers || numbers.length === 0) return ""`:
the nullable argument is modelled as an `Option`. -/
def formatLineNumbersOpt (numbers : Option (List Nat)) : String :=
  match numbers with
  | none => ""
  | some ns => formatLineNumbers ns

/-- A value stored under a file-name key of the `conflictData` object built
by src/unnamed/part_001 `attemptMerge`: either the extracted line numbers,
or (under the quiet flag) the placeholder note stored under key `"0"`. -/
inductive CDValue where
  | lineNums (l : List Nat)
  | note (s : String)
deriving Repr, DecidableEq

/-- The `conflictData` object of src/unnamed/part_001: file-name keys in
insertion order with their values. -/
abbrev ConflictData := List (String × CDValue)

/-- src/unnamed/part_001 `checkForConflicts`, line 225: the overlap filter
`pullRequestFiles.filter((file) => otherPullRequestFiles.includes(file))`. -/
def overlappingFiles (pullRequestFiles otherPullRequestFiles : List String) :
    List String :=
  pullRequestFiles.filter fun file => otherPullRequestFiles.contains file

/-- src/unnamed/part_001 `checkForConflicts`, instrumented: the result of
the `attemptMerge` call is abstracted as the argument `mergeData`, and the
second component records whether `attemptMerge` was invoked at all.  When
the overlap is empty the source returns the empty array `[]` without
touching the workspace. -/
def checkForConflictsRun (pullRequestFiles otherPullRequestFiles : List String)
    (mergeData : ConflictData) : ConflictData × Bool :=
  if (overlappingFiles pullRequestFiles otherPullRequestFiles).isEmpty then
    ([], false)
  else (mergeData, true)

/-- src/unnamed/part_001 `checkForConflicts` (result only). -/
def checkForConflicts (pullRequestFiles otherPullRequestFiles : List String)
    (mergeData : ConflictData) : ConflictData :=
  (checkForConflictsRun pullRequestFiles otherPullRequestFiles mergeData).1

/-- One other open pull request, as assembled by src/unnamed/part_001
`getOpenPullRequests`, together with its changed-file list (the result of
`getChangedFiles`, already filtered through `ignoreFile`). -/
structure OtherPR where
  number : Nat
  author : String
  branch : String
  title : String
  reviewers : List String
  files : List String
deriving Repr, DecidableEq

/-- The record pushed onto `conflictArray` by src/unnamed/part_001
`getConflictArrayData` (fields in source order). -/
structure ConflictRecord where
  author : String
  conflictData : ConflictData
  number : Nat
  title : String
  reviewers : List String
deriving Repr, DecidableEq

/-- The record literal of src/unnamed/part_001 `getConflictArrayData`. -/
def mkConflictRecord (otherPullRequest : OtherPR) (conflictData : ConflictData) :
    ConflictRecord :=
  ⟨otherPullRequest.author, conflictData, otherPullRequest.number,
    otherPullRequest.title, otherPullRequest.reviewers⟩

/-- src/unnamed/part_001 `getConflictArrayData`: for each other open pull
request run `checkForConflicts` and push a record exactly when
`Object.keys(conflictData).length > 0`.  The speculative merge result for
each pull request is abstracted as the function `mergeData`. -/
def getConflictArrayData (pullRequestFiles : List String)
    (otherPullRequests : List OtherPR) (mergeData : OtherPR → ConflictData) :
    List ConflictRecord :=
  otherPullRequests.filterMap fun otherPullRequest =>
    let conflictData :=
      checkForConflicts pullRequestFiles otherPullRequest.files
        (mergeData otherPullRequest)
    if conflictData.isEmpty then none
    else some (mkConflictRecord otherPullRequest conflictData)

/-- Models JavaScript `[...new Set(xs)]`: first occurrences, in order. -/
def jsSetDedupAux (seen : List String) : List String → List String
  | [] => []
  | a :: l =>
    if seen.contains a then jsSetDedupAux seen l
    else a :: jsSetDedupAux (a :: seen) l

/-- Models JavaScript `[...new Set(xs)]`. -/
def jsSetDedup (l : List String) : List String := jsSetDedupAux [] l

/-- src/unnamed/part_001 `requestReviews`: the deduplicated authors of
conflicting pull requests, excluding the subject's author and authors
already in the subject's reviewer set; these are requested on the subject
pull request. -/
def requestReviews (pullRequestAuthor : String)
    (existingReviewers : List String) (conflictArray : List ConflictRecord) :
    List String :=
  jsSetDedup ((conflictArray.map fun conflict => conflict.author).filter
    fun author =>
      author != pullRequestAuthor && !(existingReviewers.contains author))

/-- src/unnamed/part_001 `requestReviewsInConflictingPRs`: the
`(pull request number, reviewer)` pairs actually requested — the subject's
author on each conflicting pull request they did not author and where they
are not already a reviewer. -/
def requestReviewsInConflictingPRs (pullRequestAuthor : String)
    (conflictArray : List ConflictRecord) : List (Nat × String) :=
  conflictArray.filterMap fun conflict =>
    if conflict.author != pullRequestAuthor &&
        !(conflict.reviewers.contains pullRequestAuthor) then
      some (conflict.number, pullRequestAuthor)
    else none

/-- The workspace state visible to the claims: the set of existing
temporary refs, as a list of full ref names. -/
structure GitState where
  refs : List String
deriving Repr, DecidableEq

/-- The temporary ref name used throughout src/unnamed/part_001 for a
branch: `refs/remotes/origin/tmp_${branch}`. -/
def tmpRef (branch : String) : String :=
  "refs/remotes/origin/tmp_" ++ branch

/-- src/unnamed/part_001 `setup` (ref effect only): fetching the subject
branch creates `refs/remotes/origin/tmp_${pullRequestBranch}`. -/
def setup (pullRequestBranch : String) (s : GitState) : GitState :=
  { s with refs := tmpRef pullRequestBranch :: s.refs }

/-- src/unnamed/part_001 `cleanup`: `git update-ref -d
refs/remotes/origin/tmp_${pullRequest.number}` — note the ref is named by
the pull request *number*, not by the branch that `setup` staged.
`git update-ref -d` fails when the ref does not exist; the surrounding
`catch` block then itself raises (it references an undefined variable), so
a failed deletion is an error either way. -/
def cleanup (pullRequestNumber : Nat) (s : GitState) :
    Except String GitState :=
  let ref := "refs/remotes/origin/tmp_" ++ toString pullRequestNumber
  if s.refs.contains ref then
    Except.ok { s with refs := s.refs.erase ref }
  else Except.error "update-ref failed"

/-- Outcome of the inner `git merge` of the candidate's temporary ref in
src/unnamed/part_001 `attemptMerge`: a clean merge, a failure whose stdout
contains "Automatic merge failed" (a genuine textual conflict), or any
other failure. -/
inductive MergeResult where
  | clean
  | failAuto
  | failOther
deriving Repr, DecidableEq

/-- Environment of one `attemptMerge` call: which workspace operations
fail, how the speculative merge ends, and what the conflicted files and
their extracted line numbers are.  `extractionFailsAt = some k` models the
`git show` inside `extractConflictingLineNumbers` throwing while the k-th
conflicted file is processed (entries built so far are kept, since
`conflictData` is a closure variable). -/
structure AttemptEnv where
  isFork : Bool
  remoteAddFails : Bool
  fetchFails : Bool
  checkoutFails : Bool
  mergeMainFails : Bool
  resetFails : Bool
  innerMerge : MergeResult
  quiet : Bool
  conflictFiles : List String
  extracted : String → List Nat
  extractionFailsAt : Option Nat
  finallyResetFails : Bool

/-- The body of the outer `try` of src/unnamed/part_001 `attemptMerge`,
before its `catch`/`finally`: returns the `conflictData` accumulated so
far, the error that escaped the body (if any), and the workspace state.
The fork-remote `git remote add` failure is swallowed by its own inner
`try`/`catch` (`remoteAddFails` has no observable effect), and an inner
merge failure whose stdout lacks "Automatic merge failed" is ignored. -/
def attemptMergeBody (env : AttemptEnv) (otherBranch : String)
    (s0 : GitState) : ConflictData × Option String × GitState :=
  if env.fetchFails then ([], some "fetch failed", s0)
  else
    let s1 : GitState := { s0 with refs := tmpRef otherBranch :: s0.refs }
    if env.checkoutFails then ([], some "checkout failed", s1)
    else if env.mergeMainFails then ([], some "merge of main failed", s1)
    else if env.resetFails then ([], some "reset failed", s1)
    else
      match env.innerMerge with
      | .clean => ([], none, s1)
      | .failOther => ([], none, s1)
      | .failAuto =>
        if env.quiet then
          ([("0", .note "Extracting data is unnecessary if commenting is disabled.")],
            none, s1)
        else
          match env.extractionFailsAt with
          | some k =>
            ((env.conflictFiles.take k).map
                (fun f => (f, CDValue.lineNums (env.extracted f))),
              some "git show failed", s1)
          | none =>
            (env.conflictFiles.map
                (fun f => (f, CDValue.lineNums (env.extracted f))),
              none, s1)

/-- src/unnamed/part_001 `attemptMerge`: the outer `catch` swallows every
body error (it only logs), then the `finally` hard-resets and deletes the
candidate's temporary ref; a `finally` failure (reset failing, or
`update-ref -d` on a missing ref) escapes to the caller instead of the
return value.  The quiet-flag early `return` also passes through the
`finally`. -/
def attemptMerge (env : AttemptEnv) (otherBranch : String) (s0 : GitState) :
    Except String ConflictData × GitState :=
  if env.finallyResetFails then
    (Except.error "reset failed", (attemptMergeBody env otherBranch s0).2.2)
  else if (attemptMergeBody env otherBranch s0).2.2.refs.contains
      (tmpRef otherBranch) then
    (Except.ok (attemptMergeBody env otherBranch s0).1,
      { refs :=
          (attemptMergeBody env otherBranch s0).2.2.refs.erase
            (tmpRef otherBranch) })
  else (Except.error "update-ref failed", (attemptMergeBody env otherBranch s0).2.2)

/-- One conflict region of a conflicted file as written by the merge tool:
the "ours" block, the "theirs" block, and the closing `>>>>>>> …` line. -/
structure ConflictRegion where
  ours : List String
  theirs : List String
  endLine : String
deriving Repr, DecidableEq

/-- A conflicted file is an interleaving of plain content lines and
conflict regions. -/
inductive Segment where
  | plain (line : String)
  | conflict (region : ConflictRegion)
deriving Repr, DecidableEq

/-- The lines a segment occupies in the conflicted working-tree file. -/
def renderSegment : Segment → List String
  | .plain line => [line]
  | .conflict r =>
    "<<<<<<< HEAD" :: (r.ours ++ "=======" :: (r.theirs ++ [r.endLine]))

/-- The whole conflicted file. -/
def render (segs : List Segment) : List String :=
  (segs.map renderSegment).flatten

/-- A content line: not any of the three marker shapes the extractors
recognise. -/
def contentOk (l : String) : Bool := !(isMarkerLine l)

/-- Well-formedness of a segment: content lines are content lines, and the
closing line starts with `>>>>>>>` (as the merge tool writes it) without
masquerading as one of the other two markers. -/
def segmentOk : Segment → Bool
  | .plain line => contentOk line
  | .conflict r =>
    r.ours.all contentOk && r.theirs.all contentOk &&
      strStartsWith r.endLine ">>>>>>>" &&
      !(strStartsWith r.endLine "<<<<<<< HEAD") &&
      !(strStartsWith r.endLine "=======")

/-- Well-formedness of a whole conflicted file. -/
def renderOk (segs : List Segment) : Bool := segs.all segmentOk

/-- The "ours" blocks of a conflicted file, in order. -/
def oursBlocksOf (segs : List Segment) : List (List String) :=
  segs.filterMap fun s =>
    match s with
    | .plain _ => none
    | .conflict r => some r.ours

/-- What one segment adds to the block-anchor extractor's output. -/
def segContribution (normal : List String) : Segment → List Nat
  | .plain _ => []
  | .conflict r => oursContribution normal r.ours

/-- The closed-form output of the positional extractor on a well-formed
conflicted file, with `c` lines already counted: a plain line advances the
counter by one; a conflict region is anchored at the counter value of its
`<<<<<<< HEAD` line (`c + 1`, which is also all the region advances the
counter by, since the source adds `theirsBlock.length` only after
resetting `theirsBlock`). -/
def positionalLines : Nat → List Segment → List Nat
  | _, [] => []
  | c, Segment.plain _ :: rest => positionalLines (c + 1) rest
  | c, Segment.conflict r :: rest =>
    positionalContribution (c + 1) r.ours r.theirs ++
      positionalLines (c + 1) rest

lemma lt_marker_self : strStartsWith "<<<<<<< HEAD" "<<<<<<< HEAD" = true := by
  decide

lemma eq_marker_not_lt : strStartsWith "=======" "<<<<<<< HEAD" = false := by
  decide

lemma eq_marker_self : strStartsWith "=======" "=======" = true := by decide

lemma contentOk_branches (l : String) (h : contentOk l = true) :
    strStartsWith l "<<<<<<< HEAD" = false ∧
      strStartsWith l "=======" = false ∧
      strStartsWith l ">>>>>>>" = false := by
  simp [contentOk, isMarkerLine] at h
  exact ⟨h.1.1, h.1.2, h.2⟩

lemma extractStep_lt (normal : List String) (st : ExtractState) :
    extractStep normal st "<<<<<<< HEAD" =
      { st with inOursBlock := true, oursBlock := [] } := by
  simp [extractStep, lt_marker_self]

lemma extractStep_eq (normal : List String) (st : ExtractState) :
    extractStep normal st "=======" =
      { st with inOursBlock := false,
                conflictLines :=
                  st.conflictLines ++ oursContribution normal st.oursBlock } := by
  simp [extractStep, eq_marker_not_lt, eq_marker_self]

lemma extractStep_end (normal : List String) (st : ExtractState)
    (endLine : String) (h1 : strStartsWith endLine ">>>>>>>" = true)
    (h2 : strStartsWith endLine "<<<<<<< HEAD" = false)
    (h3 : strStartsWith endLine "=======" = false) :
    extractStep normal st endLine = { st with oursBlock := [] } := by
  simp [extractStep, h1, h2, h3]

lemma extractStep_content (normal : List String) (st : ExtractState)
    (l : String) (h : contentOk l = true) :
    extractStep normal st l =
      if st.inOursBlock then { st with oursBlock := st.oursBlock ++ [l] }
      else st := by
  obtain ⟨h1, h2, h3⟩ := contentOk_branches l h
  simp [extractStep, h1, h2, h3]

lemma foldl_extract_plain (normal : List String) (ls : List String) :
    ls.all contentOk = true → ∀ acc blk,
      ls.foldl (extractStep normal) ⟨acc, blk, false⟩ = ⟨acc, blk, false⟩ := by
  induction ls with
  | nil => intro _ acc blk; rfl
  | cons l ls ih =>
    intro h acc blk
    simp only [List.all_cons, Bool.and_eq_true] at h
    rw [List.foldl_cons, extractStep_content _ _ _ h.1]
    exact ih h.2 acc blk

lemma foldl_extract_ours (normal : List String) (ls : List String) :
    ls.all contentOk = true → ∀ acc blk,
      ls.foldl (extractStep normal) ⟨acc, blk, true⟩ =
        ⟨acc, blk ++ ls, true⟩ := by
  induction ls with
  | nil => intro _ acc blk; simp
  | cons l ls ih =>
    intro h acc blk
    simp only [List.all_cons, Bool.and_eq_true] at h
    rw [List.foldl_cons, extractStep_content _ _ _ h.1]
    simp only [if_pos]
    rw [ih h.2 acc (blk ++ [l])]
    simp

lemma foldl_extract_segment (normal : List String) (seg : Segment)
    (h : segmentOk seg = true) (acc : List Nat) :
    (renderSegment seg).foldl (extractStep normal) ⟨acc, [], false⟩ =
      ⟨acc ++ segContribution normal seg, [], false⟩ := by
  cases seg with
  | plain line =>
    simp only [renderSegment, segContribution, List.foldl_cons, List.foldl_nil]
    rw [extractStep_content _ _ _ h]
    simp
  | conflict r =>
    simp only [segmentOk, Bool.and_eq_true] at h
    obtain ⟨⟨⟨⟨hours, htheirs⟩, hend1⟩, hend2⟩, hend3⟩ := h
    rw [Bool.not_eq_true'] at hend2 hend3
    have h1 : extractStep normal ⟨acc, [], false⟩ "<<<<<<< HEAD" =
        ⟨acc, [], true⟩ := by rw [extractStep_lt]
    have h2 : r.ours.foldl (extractStep normal) ⟨acc, [], true⟩ =
        ⟨acc, r.ours, true⟩ := by
      have hf := foldl_extract_ours normal r.ours hours acc []
      simpa using hf
    have h3 : extractStep normal ⟨acc, r.ours, true⟩ "=======" =
        ⟨acc ++ oursContribution normal r.ours, r.ours, false⟩ := by
      rw [extractStep_eq]
    have h4 : r.theirs.foldl (extractStep normal)
        ⟨acc ++ oursContribution normal r.ours, r.ours, false⟩ =
        ⟨acc ++ oursContribution normal r.ours, r.ours, false⟩ :=
      foldl_extract_plain normal r.theirs htheirs _ _
    have h5 : extractStep normal
        ⟨acc ++ oursContribution normal r.ours, r.ours, false⟩ r.endLine =
        ⟨acc ++ oursContribution normal r.ours, [], false⟩ := by
      rw [extractStep_end _ _ _ hend1 hend2 hend3]
    simp only [renderSegment, List.foldl_cons, List.foldl_append,
      List.foldl_nil]
    rw [h1, h2, h3, h4, h5]
    simp [segContribution]

/-- Decomposition of the block-anchor extractor over a well-formed
conflicted file: the output is the concatenation of the per-"ours"-block
contributions. -/
theorem extract1Core_render (normal : List String) (segs : List Segment)
    (h : renderOk segs = true) :
    extract1Core normal (render segs) =
      ((oursBlocksOf segs).map (oursContribution normal)).flatten := by
  have main : ∀ (segs : List Segment), renderOk segs = true → ∀ acc,
      (render segs).foldl (extractStep normal) ⟨acc, [], false⟩ =
        ⟨acc ++ (segs.map (segContribution normal)).flatten, [], false⟩ := by
    intro segs
    induction segs with
    | nil => intro _ acc; simp [render]
    | cons seg rest ih =>
      intro h acc
      simp only [renderOk, List.all_cons, Bool.and_eq_true] at h
      have hsplit : render (seg :: rest) = renderSegment seg ++ render rest := by
        simp [render]
      rw [hsplit, List.foldl_append, foldl_extract_segment normal seg h.1 acc,
        ih h.2 (acc ++ segContribution normal seg)]
      simp
  have conv : ∀ segs : List Segment,
      (segs.map (segContribution normal)).flatten =
        ((oursBlocksOf segs).map (oursContribution normal)).flatten := by
    intro segs
    induction segs with
    | nil => rfl
    | cons seg rest ih =>
      cases seg with
      | plain l => simp [oursBlocksOf, segContribution, ih]
      | conflict r => simp [oursBlocksOf, segContribution, ih]
  rw [extract1Core, main segs h [], conv segs]
  simp

lemma positionalStep_lt (c : Nat) (acc : List Nat) (ours theirs : List String)
    (cs : Nat) :
    positionalStep ⟨c, acc, ours, theirs, false, false, cs⟩ "<<<<<<< HEAD" =
      ⟨c + 1, acc, ours, theirs, true, false, c + 1⟩ := by
  simp [positionalStep, lt_marker_self]

lemma positionalStep_eq_inOurs (c : Nat) (acc : List Nat)
    (ours theirs : List String) (cs : Nat) :
    positionalStep ⟨c, acc, ours, theirs, true, false, cs⟩ "=======" =
      ⟨c, acc, ours, theirs, false, true, cs⟩ := by
  simp [positionalStep, eq_marker_not_lt, eq_marker_self]

lemma positionalStep_end (endLine : String)
    (h1 : strStartsWith endLine ">>>>>>>" = true)
    (h2 : strStartsWith endLine "<<<<<<< HEAD" = false)
    (h3 : strStartsWith endLine "=======" = false) (c : Nat) (acc : List Nat)
    (ours theirs : List String) (cs : Nat) :
    positionalStep ⟨c, acc, ours, theirs, false, true, cs⟩ endLine =
      ⟨c, acc ++ positionalContribution cs ours theirs, [], [], false, false,
        cs⟩ := by
  simp [positionalStep, h1, h2, h3]

lemma positionalStep_ours_content (l : String) (h : contentOk l = true)
    (c : Nat) (acc : List Nat) (ours theirs : List String) (cs : Nat) :
    positionalStep ⟨c, acc, ours, theirs, true, false, cs⟩ l =
      ⟨c, acc, ours ++ [l], theirs, true, false, cs⟩ := by
  obtain ⟨h1, h2, h3⟩ := contentOk_branches l h
  simp [positionalStep, h1, h2, h3]

lemma positionalStep_theirs_content (l : String) (h : contentOk l = true)
    (c : Nat) (acc : List Nat) (ours theirs : List String) (cs : Nat) :
    positionalStep ⟨c, acc, ours, theirs, false, true, cs⟩ l =
      ⟨c, acc, ours, theirs ++ [l], false, true, cs⟩ := by
  obtain ⟨h1, h2, h3⟩ := contentOk_branches l h
  simp [positionalStep, h1, h2, h3]

lemma positionalStep_plain (l : String) (h : contentOk l = true) (c : Nat)
    (acc : List Nat) (ours theirs : List String) (cs : Nat) :
    positionalStep ⟨c, acc, ours, theirs, false, false, cs⟩ l =
      ⟨c + 1, acc, ours, theirs, false, false, cs⟩ := by
  obtain ⟨h1, h2, h3⟩ := contentOk_branches l h
  simp [positionalStep, h1, h2, h3]

lemma foldl_positional_ours (ls : List String) :
    ls.all contentOk = true → ∀ c acc ours theirs cs,
      ls.foldl positionalStep ⟨c, acc, ours, theirs, true, false, cs⟩ =
        ⟨c, acc, ours ++ ls, theirs, true, false, cs⟩ := by
  induction ls with
  | nil => intro _ c acc ours theirs cs; simp
  | cons l ls ih =>
    intro h c acc ours theirs cs
    simp only [List.all_cons, Bool.and_eq_true] at h
    rw [List.foldl_cons, positionalStep_ours_content l h.1,
      ih h.2 c acc (ours ++ [l]) theirs cs]
    simp

lemma foldl_positional_theirs (ls : List String) :
    ls.all contentOk = true → ∀ c acc ours theirs cs,
      ls.foldl positionalStep ⟨c, acc, ours, theirs, false, true, cs⟩ =
        ⟨c, acc, ours, theirs ++ ls, false, true, cs⟩ := by
  induction ls with
  | nil => intro _ c acc ours theirs cs; simp
  | cons l ls ih =>
    intro h c acc ours theirs cs
    simp only [List.all_cons, Bool.and_eq_true] at h
    rw [List.foldl_cons, positionalStep_theirs_content l h.1,
      ih h.2 c acc ours (theirs ++ [l]) cs]
    simp

lemma foldl_positional_segment (seg : Segment) (h : segmentOk seg = true)
    (c : Nat) (acc : List Nat) (cs : Nat) :
    (renderSegment seg).foldl positionalStep ⟨c, acc, [], [], false, false, cs⟩ =
      match seg with
      | .plain _ => ⟨c + 1, acc, [], [], false, false, cs⟩
      | .conflict r =>
        ⟨c + 1, acc ++ positionalContribution (c + 1) r.ours r.theirs, [], [],
          false, false, c + 1⟩ := by
  cases seg with
  | plain line =>
    simp only [renderSegment, List.foldl_cons, List.foldl_nil]
    rw [positionalStep_plain line h]
  | conflict r =>
    simp only [segmentOk, Bool.and_eq_true] at h
    obtain ⟨⟨⟨⟨hours, htheirs⟩, hend1⟩, hend2⟩, hend3⟩ := h
    rw [Bool.not_eq_true'] at hend2 hend3
    have h1 := positionalStep_lt c acc [] [] cs
    have h2 := foldl_positional_ours r.ours hours (c + 1) acc [] [] (c + 1)
    have h3 := positionalStep_eq_inOurs (c + 1) acc ([] ++ r.ours) [] (c + 1)
    have h4 := foldl_positional_theirs r.theirs htheirs (c + 1) acc
      ([] ++ r.ours) [] (c + 1)
    have h5 := positionalStep_end r.endLine hend1 hend2 hend3 (c + 1) acc
      ([] ++ r.ours) ([] ++ r.theirs) (c + 1)
    simp only [renderSegment, List.foldl_cons, List.foldl_append,
      List.foldl_nil]
    rw [h1, h2, h3, h4, h5]
    simp

/-- Decomposition of the positional extractor over a well-formed conflicted
file: the output is `positionalLines 0 segs`, the per-region positional
contributions anchored at the running line counter. -/
theorem extract2Core_render (segs : List Segment) (h : renderOk segs = true) :
    extract2Core (render segs) = positionalLines 0 segs := by
  have main : ∀ (segs : List Segment), renderOk segs = true → ∀ c acc cs,
      ((render segs).foldl positionalStep
          ⟨c, acc, [], [], false, false, cs⟩).conflictLines =
        acc ++ positionalLines c segs := by
    intro segs
    induction segs with
    | nil => intro _ c acc cs; simp [render, positionalLines]
    | cons seg rest ih =>
      intro h c acc cs
      simp only [renderOk, List.all_cons, Bool.and_eq_true] at h
      have hsplit : render (seg :: rest) = renderSegment seg ++ render rest := by
        simp [render]
      rw [hsplit, List.foldl_append, foldl_positional_segment seg h.1 c acc cs]
      cases seg with
      | plain line =>
        rw [show positionalLines c (Segment.plain line :: rest) =
            positionalLines (c + 1) rest from rfl]
        exact ih h.2 (c + 1) acc cs
      | conflict r =>
        rw [show positionalLines c (Segment.conflict r :: rest) =
            positionalContribution (c + 1) r.ours r.theirs ++
              positionalLines (c + 1) rest from rfl]
        rw [ih h.2 (c + 1)
          (acc ++ positionalContribution (c + 1) r.ours r.theirs) (c + 1)]
        simp
  rw [extract2Core, main segs h 0 [] 0]
  simp

lemma blockMatchesAux_nth (normal : List String) :
    ∀ (bs : List String) (i : Nat), blockMatchesAux normal i bs = true →
      ∀ j, j < bs.length → ∃ b, bs[j]? = some b ∧ normal[i + j]? = some b := by
  intro bs
  induction bs with
  | nil => intro i _ j hj; simp at hj
  | cons b bs ih =>
    intro i h j hj
    simp only [blockMatchesAux, Bool.and_eq_true, beq_iff_eq] at h
    cases j with
    | zero => exact ⟨b, by simp, by simpa using h.1⟩
    | succ j =>
      obtain ⟨b', hb1, hb2⟩ := ih (i + 1) h.2 j (by simpa using hj)
      refine ⟨b', by simpa using hb1, ?_⟩
      have hidx : i + 1 + j = i + (j + 1) := by omega
      rw [← hidx]
      exact hb2

lemma oursContribution_cons (normal : List String) (b0 : String)
    (rest : List String) :
    oursContribution normal (b0 :: rest) =
      match indexOfStr normal b0 with
      | none => []
      | some startIndex =>
        if blockMatches normal startIndex (b0 :: rest) then
          (List.range (b0 :: rest).length).map fun i => startIndex + i + 1
        else [] := rfl

/-- Every number emitted for one "ours" block is a 1-indexed position into
the pristine file, and the pristine line there is a member of the block. -/
lemma oursContribution_spec (normal block : List String) (n : Nat)
    (h : n ∈ oursContribution normal block) :
    1 ≤ n ∧ n ≤ normal.length ∧
      ∃ l, normal[n - 1]? = some l ∧ l ∈ block := by
  cases block with
  | nil => simp [oursContribution] at h
  | cons b0 rest =>
    cases hidx : indexOfStr normal b0 with
    | none => simp only [oursContribution_cons, hidx] at h; simp at h
    | some s =>
      simp only [oursContribution_cons, hidx] at h
      by_cases hm : blockMatches normal s (b0 :: rest) = true
      · rw [if_pos hm] at h
        simp only [List.mem_map, List.mem_range] at h
        obtain ⟨i, hi, rfl⟩ := h
        rw [blockMatches] at hm
        obtain ⟨b, hb1, hb2⟩ := blockMatchesAux_nth normal (b0 :: rest) s hm i hi
        have hlt : s + i < normal.length := by
          rw [List.getElem?_eq_some] at hb2
          exact hb2.1
        refine ⟨by omega, by omega, b, ?_, List.getElem?_mem hb1⟩
        have : s + i + 1 - 1 = s + i := by omega
        rw [this]
        exact hb2
      · rw [if_neg hm] at h
        simp at h

/-- The numbers emitted for one "ours" block are strictly increasing. -/
lemma oursContribution_pairwise (normal block : List String) :
    (oursContribution normal block).Pairwise (· < ·) := by
  cases block with
  | nil => simp [oursContribution]
  | cons b0 rest =>
    cases hidx : indexOfStr normal b0 with
    | none => simp [oursContribution_cons, hidx]
    | some s =>
      rw [oursContribution_cons]
      simp only [hidx]
      by_cases hm : blockMatches normal s (b0 :: rest) = true
      · rw [if_pos hm]
        refine (List.pairwise_lt_range _).map _ ?_
        intro a b hab
        omega
      · rw [if_neg hm]
        simp

lemma extractStep_conflictLines_mem (normal : List String) (st : ExtractState)
    (l : String) (n : Nat)
    (h : n ∈ (extractStep normal st l).conflictLines) :
    n ∈ st.conflictLines ∨ n ∈ oursContribution normal st.oursBlock := by
  unfold extractStep at h
  split at h
  · exact Or.inl h
  · split at h
    · rcases List.mem_append.mp h with h' | h'
      · exact Or.inl h'
      · exact Or.inr h'
    · split at h
      · exact Or.inl h
      · split at h
        · exact Or.inl h
        · exact Or.inl h

/-- Invariant: every number ever pushed onto `conflictLines` by the
block-anchor extractor is a 1-indexed position into the pristine file. -/
theorem extract1Core_bound (normal lines : List String) (n : Nat)
    (h : n ∈ extract1Core normal lines) : 1 ≤ n ∧ n ≤ normal.length := by
  suffices main : ∀ (ls : List String) (st : ExtractState),
      (∀ m ∈ st.conflictLines, 1 ≤ m ∧ m ≤ normal.length) →
      ∀ m ∈ (ls.foldl (extractStep normal) st).conflictLines,
        1 ≤ m ∧ m ≤ normal.length by
    exact main lines ⟨[], [], false⟩ (by simp) n h
  intro ls
  induction ls with
  | nil => intro st hst m hm; exact hst m hm
  | cons l ls ih =>
    intro st hst m hm
    rw [List.foldl_cons] at hm
    refine ih (extractStep normal st l) ?_ m hm
    intro m' hm'
    rcases extractStep_conflictLines_mem normal st l m' hm' with h' | h'
    · exact hst m' h'
    · obtain ⟨h1, h2, _⟩ := oursContribution_spec normal st.oursBlock m' h'
      exact ⟨h1, h2⟩

lemma jsSetDedupAux_mem (l : List String) :
    ∀ (seen : List String) (a : String),
      a ∈ jsSetDedupAux seen l ↔ (a ∈ l ∧ a ∉ seen) := by
  induction l with
  | nil => intro seen a; simp [jsSetDedupAux]
  | cons b l ih =>
    intro seen a
    by_cases hc : seen.contains b
    · have hb : b ∈ seen := List.elem_iff.mp hc
      simp only [jsSetDedupAux, if_pos hc]
      rw [ih seen a]
      simp only [List.mem_cons]
      constructor
      · rintro ⟨h1, h2⟩; exact ⟨Or.inr h1, h2⟩
      · rintro ⟨h1 | h1, h2⟩
        · subst h1; exact absurd hb h2
        · exact ⟨h1, h2⟩
    · simp only [jsSetDedupAux, if_neg hc]
      have hb : b ∉ seen := fun hmem => hc (List.elem_iff.mpr hmem)
      simp only [List.mem_cons]
      constructor
      · rintro (rfl | h1)
        · exact ⟨Or.inl rfl, hb⟩
        · rw [ih (b :: seen) a] at h1
          obtain ⟨h2, h3⟩ := h1
          simp only [List.mem_cons] at h3
          push_neg at h3
          exact ⟨Or.inr h2, h3.2⟩
      · rintro ⟨rfl | h1, h2⟩
        · exact Or.inl rfl
        · by_cases hab : a = b
          · exact Or.inl hab
          · refine Or.inr ?_
            rw [ih (b :: seen) a]
            refine ⟨h1, ?_⟩
            simp only [List.mem_cons]
            push_neg
            exact ⟨hab, h2⟩

lemma jsSetDedup_mem (l : List String) (a : String) :
    a ∈ jsSetDedup l ↔ a ∈ l := by
  rw [jsSetDedup, jsSetDedupAux_mem]
  simp

lemma jsSetDedupAux_nodup (l : List String) :
    ∀ seen, (jsSetDedupAux seen l).Nodup := by
  induction l with
  | nil => intro seen; simp [jsSetDedupAux]
  | cons b l ih =>
    intro seen
    by_cases hc : seen.contains b
    · simp only [jsSetDedupAux, if_pos hc]; exact ih seen
    · simp only [jsSetDedupAux, if_neg hc]
      rw [List.nodup_cons]
      refine ⟨?_, ih (b :: seen)⟩
      intro hmem
      rw [jsSetDedupAux_mem] at hmem
      exact hmem.2 (List.mem_cons_self b seen)

lemma jsSetDedup_nodup (l : List String) : (jsSetDedup l).Nodup :=
  jsSetDedupAux_nodup l []

lemma requestReviews_mem (pullRequestAuthor : String)
    (existingReviewers : List String) (conflictArray : List ConflictRecord)
    (a : String) :
    a ∈ requestReviews pullRequestAuthor existingReviewers conflictArray ↔
      ((∃ c ∈ conflictArray, c.author = a) ∧ a ≠ pullRequestAuthor ∧
        a ∉ existingReviewers) := by
  rw [requestReviews, jsSetDedup_mem, List.mem_filter, List.mem_map]
  constructor
  · rintro ⟨⟨c, hc, rfl⟩, hp⟩
    simp only [Bool.and_eq_true, bne_iff_ne, Bool.not_eq_true'] at hp
    refine ⟨⟨c, hc, rfl⟩, hp.1, fun hmem => ?_⟩
    have hcon : existingReviewers.contains c.author = true :=
      List.elem_iff.mpr hmem
    rw [hp.2] at hcon
    exact Bool.false_ne_true hcon
  · rintro ⟨⟨c, hc, rfl⟩, h1, h2⟩
    refine ⟨⟨c, hc, rfl⟩, ?_⟩
    simp only [Bool.and_eq_true, bne_iff_ne, Bool.not_eq_true']
    refine ⟨h1, ?_⟩
    rw [← Bool.not_eq_true]
    intro hcon
    exact h2 (List.elem_iff.mp hcon)

lemma requestReviewsInConflictingPRs_mem (pullRequestAuthor : String)
    (conflictArray : List ConflictRecord) (n : Nat) (r : String) :
    (n, r) ∈ requestReviewsInConflictingPRs pullRequestAuthor conflictArray ↔
      (r = pullRequestAuthor ∧ ∃ c ∈ conflictArray, c.number = n ∧
        c.author ≠ pullRequestAuthor ∧ pullRequestAuthor ∉ c.reviewers) := by
  rw [requestReviewsInConflictingPRs, List.mem_filterMap]
  constructor
  · rintro ⟨c, hc, hval⟩
    by_cases hp : (c.author != pullRequestAuthor &&
        !(c.reviewers.contains pullRequestAuthor)) = true
    · rw [if_pos hp] at hval
      simp only [Option.some.injEq, Prod.mk.injEq] at hval
      simp only [Bool.and_eq_true, bne_iff_ne, Bool.not_eq_true'] at hp
      refine ⟨hval.2.symm, c, hc, hval.1, hp.1, fun hmem => ?_⟩
      have hcon : c.reviewers.contains pullRequestAuthor = true :=
        List.elem_iff.mpr hmem
      rw [hp.2] at hcon
      exact Bool.false_ne_true hcon
    · rw [if_neg hp] at hval
      exact absurd hval (Option.noConfusion)
  · rintro ⟨rfl, c, hc, rfl, h1, h2⟩
    refine ⟨c, hc, ?_⟩
    rw [if_pos ?_]
    · simp only [Bool.and_eq_true, bne_iff_ne, Bool.not_eq_true']
      refine ⟨h1, ?_⟩
      rw [← Bool.not_eq_true]
      intro hcon
      exact h2 (List.elem_iff.mp hcon)

lemma requestReviewsInConflictingPRs_fst_sublist (pullRequestAuthor : String) :
    ∀ conflictArray : List ConflictRecord,
      ((requestReviewsInConflictingPRs pullRequestAuthor conflictArray).map
        Prod.fst).Sublist (conflictArray.map fun c => c.number) := by
  intro conflictArray
  induction conflictArray with
  | nil => simp [requestReviewsInConflictingPRs]
  | cons c arr ih =>
    by_cases hp : (c.author != pullRequestAuthor &&
        !(c.reviewers.contains pullRequestAuthor)) = true
    · simp only [requestReviewsInConflictingPRs, List.filterMap_cons,
        if_pos hp, List.map_cons]
      exact ih.cons₂ c.number
    · simp only [requestReviewsInConflictingPRs, List.filterMap_cons,
        if_neg hp, List.map_cons]
      exact ih.cons c.number

lemma attemptMergeBody_refs (env : AttemptEnv) (otherBranch : String)
    (s0 : GitState) :
    (attemptMergeBody env otherBranch s0).2.2.refs = s0.refs ∨
      (attemptMergeBody env otherBranch s0).2.2.refs =
        tmpRef otherBranch :: s0.refs := by
  by_cases h1 : env.fetchFails = true
  · left; simp [attemptMergeBody, h1]
  · rw [Bool.not_eq_true] at h1
    by_cases h2 : env.checkoutFails = true
    · right; simp [attemptMergeBody, h1, h2]
    · rw [Bool.not_eq_true] at h2
      by_cases h3 : env.mergeMainFails = true
      · right; simp [attemptMergeBody, h1, h2, h3]
      · rw [Bool.not_eq_true] at h3
        by_cases h4 : env.resetFails = true
        · right; simp [attemptMergeBody, h1, h2, h3, h4]
        · rw [Bool.not_eq_true] at h4
          cases him : env.innerMerge with
          | clean => right; simp [attemptMergeBody, h1, h2, h3, h4, him]
          | failOther => right; simp [attemptMergeBody, h1, h2, h3, h4, him]
          | failAuto =>
            by_cases h5 : env.quiet = true
            · right; simp [attemptMergeBody, h1, h2, h3, h4, him, h5]
            · rw [Bool.not_eq_true] at h5
              cases hex : env.extractionFailsAt with
              | none =>
                right; simp [attemptMergeBody, h1, h2, h3, h4, him, h5, hex]
              | some k =>
                right; simp [attemptMergeBody, h1, h2, h3, h4, him, h5, hex]

lemma attemptMergeBody_ne_nil (env : AttemptEnv) (otherBranch : String)
    (s0 : GitState) (h : (attemptMergeBody env otherBranch s0).1 ≠ []) :
    env.innerMerge = MergeResult.failAuto ∧ env.fetchFails = false ∧
      env.checkoutFails = false ∧ env.mergeMainFails = false ∧
      env.resetFails = false := by
  by_cases h1 : env.fetchFails = true
  · exact absurd (by simp [attemptMergeBody, h1]) h
  · rw [Bool.not_eq_true] at h1
    by_cases h2 : env.checkoutFails = true
    · exact absurd (by simp [attemptMergeBody, h1, h2]) h
    · rw [Bool.not_eq_true] at h2
      by_cases h3 : env.mergeMainFails = true
      · exact absurd (by simp [attemptMergeBody, h1, h2, h3]) h
      · rw [Bool.not_eq_true] at h3
        by_cases h4 : env.resetFails = true
        · exact absurd (by simp [attemptMergeBody, h1, h2, h3, h4]) h
        · rw [Bool.not_eq_true] at h4
          cases him : env.innerMerge with
          | clean =>
            exact absurd (by simp [attemptMergeBody, h1, h2, h3, h4, him]) h
          | failOther =>
            exact absurd (by simp [attemptMergeBody, h1, h2, h3, h4, him]) h
          | failAuto => exact ⟨rfl, h1, h2, h3, h4⟩

/-- Whenever `attemptMerge` returns a result (rather than propagating a
`finally` failure), the candidate's temporary ref created for the attempt
is no longer present: worked for every exit path — clean merge, detected
conflict, or a swallowed infrastructure error. -/
theorem attemptMerge_deletes_candidate_ref (env : AttemptEnv)
    (otherBranch : String) (s0 : GitState)
    (hfresh : tmpRef otherBranch ∉ s0.refs) (d : ConflictData) (s1 : GitState)
    (h : attemptMerge env otherBranch s0 = (Except.ok d, s1)) :
    tmpRef otherBranch ∉ s1.refs := by
  rw [attemptMerge] at h
  by_cases hf : env.finallyResetFails = true
  · rw [if_pos hf] at h
    exact absurd (congrArg Prod.fst h) (by simp)
  · rw [if_neg hf] at h
    by_cases hc : (attemptMergeBody env otherBranch s0).2.2.refs.contains
        (tmpRef otherBranch) = true
    · rw [if_pos hc] at h
      rw [Prod.mk.injEq] at h
      obtain ⟨_, hs⟩ := h
      rw [← hs]
      intro hmem
      simp only at hmem
      rcases attemptMergeBody_refs env otherBranch s0 with hr | hr
      · rw [hr] at hmem
        exact hfresh (List.mem_of_mem_erase hmem)
      · rw [hr, List.erase_cons_head] at hmem
        exact hfresh hmem
    · rw [if_neg hc] at h
      exact absurd (congrArg Prod.fst h) (by simp)

/-- Concrete other pull request used to exercise `getConflictArrayData`. -/
def otherC1 : OtherPR := ⟨2, "alice", "feature-2", "Other PR", [], ["f.txt"]⟩

/-- C1 (counterexample): a merge attempt whose line extraction yields only
empty line sets still produces a `ConflictRecord` — `getConflictArrayData`
pushes a record whenever `conflictData` has at least one key, even when
every value is the empty line list, contradicting the claim that a record
is only constructed when some file has a non-empty conflict line set. -/
theorem conflictRecord_empty_lines_cex :
    getConflictArrayData ["f.txt"] [otherC1]
        (fun _ => [("f.txt", CDValue.lineNums [])]) =
      [mkConflictRecord otherC1 [("f.txt", CDValue.lineNums [])]] ∧
    getConflictArrayData ["f.txt"] [otherC1]
        (fun _ => [("f.txt", CDValue.lineNums [])]) ≠ [] := by
  exact ⟨rfl, by decide⟩

/-- C1 (amended): a `ConflictRecord` for another pull request is
constructed exactly when `checkForConflicts` returns a non-empty
`conflictData` object — i.e. at least one conflicted file key — regardless
of whether the per-file line sets are empty. -/
theorem conflictRecord_iff_nonempty_conflictData
    (pullRequestFiles : List String) (otherPullRequests : List OtherPR)
    (mergeData : OtherPR → ConflictData) (rec : ConflictRecord) :
    rec ∈ getConflictArrayData pullRequestFiles otherPullRequests mergeData ↔
      ∃ o ∈ otherPullRequests,
        checkForConflicts pullRequestFiles o.files (mergeData o) ≠ [] ∧
          rec = mkConflictRecord o
            (checkForConflicts pullRequestFiles o.files (mergeData o)) := by
  rw [getConflictArrayData, List.mem_filterMap]
  constructor
  · rintro ⟨o, ho, hval⟩
    by_cases he :
        (checkForConflicts pullRequestFiles o.files (mergeData o)).isEmpty = true
    · rw [if_pos he] at hval
      cases hval
    · rw [if_neg he] at hval
      rw [Option.some.injEq] at hval
      refine ⟨o, ho, ?_, hval.symm⟩
      intro hnil
      rw [List.isEmpty_iff] at he
      exact he hnil
  · rintro ⟨o, ho, hne, rfl⟩
    refine ⟨o, ho, ?_⟩
    rw [if_neg ?_]
    intro he
    rw [List.isEmpty_iff] at he
    exact hne he

/-- C1 (witness). -/
theorem conflictRecord_iff_nonempty_conflictData_witness :
    mkConflictRecord otherC1 [("f.txt", CDValue.lineNums [7])] ∈
      getConflictArrayData ["f.txt"] [otherC1]
        (fun _ => [("f.txt", CDValue.lineNums [7])]) :=
  (conflictRecord_iff_nonempty_conflictData ["f.txt"] [otherC1]
    (fun _ => [("f.txt", CDValue.lineNums [7])])
    (mkConflictRecord otherC1 [("f.txt", CDValue.lineNums [7])])).mpr
    (by decide)

/-- C2 (code bug, evaluated at the failing input): `setup` stages the
subject branch under `refs/remotes/origin/tmp_<branch>`, but `cleanup`
deletes `refs/remotes/origin/tmp_<pull request number>`.  For a subject
pull request with number 42 and head branch "feature", final cleanup
attempts to delete a ref that never existed (which itself errors) and the
subject's actual temporary ref survives. -/
theorem cleanup_misses_subject_ref :
    cleanup 42 (setup "feature" ⟨[]⟩) = Except.error "update-ref failed" ∧
    tmpRef "feature" ∈ (setup "feature" ⟨[]⟩).refs := by
  exact ⟨rfl, by decide⟩

/-- C3 (counterexample): two conflict blocks whose "ours" sides both anchor
at the same pristine line make the block-anchor extractor emit the same
1-indexed line number twice — the output is neither strictly increasing
nor duplicate-free. -/
theorem extract_lines_not_increasing_cex :
    extractConflictingLineNumbers "a\nb"
        "<<<<<<< HEAD\na\n=======\nx\n>>>>>>> branch\n<<<<<<< HEAD\na\n=======\ny\n>>>>>>> branch" =
      [1, 1] ∧
    ¬ (extractConflictingLineNumbers "a\nb"
        "<<<<<<< HEAD\na\n=======\nx\n>>>>>>> branch\n<<<<<<< HEAD\na\n=======\ny\n>>>>>>> branch").Nodup := by
  exact ⟨by decide, by decide⟩

/-- C3 (amended): every emitted number is a 1-indexed line number within
the pristine file (for arbitrary file contents), and on a well-formed
conflicted file each individual block's emitted run is strictly increasing
and duplicate-free; the concatenated list across blocks, however, need not
be (see the counterexample). -/
theorem extract_lines_bounds_and_blockwise_sorted :
    (∀ (pristineContent conflictedContent : String) (n : Nat),
      n ∈ extractConflictingLineNumbers pristineContent conflictedContent →
        1 ≤ n ∧ n ≤ (splitLines pristineContent).length) ∧
    (∀ (normal : List String) (segs : List Segment), renderOk segs = true →
      extract1Core normal (render segs) =
        ((oursBlocksOf segs).map (oursContribution normal)).flatten ∧
      ∀ block ∈ oursBlocksOf segs,
        (oursContribution normal block).Pairwise (· < ·)) := by
  constructor
  · intro pristineContent conflictedContent n h
    exact extract1Core_bound _ _ n h
  · intro normal segs h
    exact ⟨extract1Core_render normal segs h,
      fun block _ => oursContribution_pairwise normal block⟩

/-- C3 (witness). -/
theorem extract_lines_bounds_witness :
    1 ≤ 1 ∧ 1 ≤ (splitLines "a\nb").length :=
  extract_lines_bounds_and_blockwise_sorted.1 "a\nb"
    "<<<<<<< HEAD\na\n=======\nz\n>>>>>>> branch" 1 (by decide)

/-- Concrete well-formed conflicted file used as a witness input. -/
def segsC4 : List Segment :=
  [Segment.plain "keep", Segment.conflict ⟨["a"], ["x"], ">>>>>>> other"⟩]

/-- C4: under the block-anchor strategy, the extractor's output on a
well-formed conflicted file is exactly the concatenation of per-block
contributions, where a block whose first line anchors via `indexOf` and
matches the pristine file at consecutive offsets emits exactly the
1-indexed pristine line numbers it spans, and a block whose first line is
not found contributes nothing. -/
theorem block_anchor_decomposition (normal : List String)
    (segs : List Segment) (h : renderOk segs = true) :
    extract1Core normal (render segs) =
      ((oursBlocksOf segs).map (oursContribution normal)).flatten ∧
    ∀ block ∈ oursBlocksOf segs, ∀ b0, block.head? = some b0 →
      ((indexOfStr normal b0 = none → oursContribution normal block = []) ∧
        (∀ s, indexOfStr normal b0 = some s →
          blockMatches normal s block = true →
          oursContribution normal block =
            (List.range block.length).map fun i => s + i + 1)) := by
  refine ⟨extract1Core_render normal segs h, ?_⟩
  intro block _ b0 hb0
  cases block with
  | nil => cases hb0
  | cons x rest =>
    obtain rfl : x = b0 := by simpa using hb0
    constructor
    · intro hidx
      rw [oursContribution_cons]
      simp [hidx]
    · intro s hidx hm
      rw [oursContribution_cons]
      simp only [hidx]
      rw [if_pos hm]

/-- C4 (witness). -/
theorem block_anchor_decomposition_witness :
    extract1Core ["z", "a"] (render segsC4) =
      ((oursBlocksOf segsC4).map (oursContribution ["z", "a"])).flatten :=
  (block_anchor_decomposition ["z", "a"] segsC4 (by decide)).1

/-- C5: the overlap filter answers "worth attempting" true iff the two
changed-file lists intersect, and on disjoint lists `checkForConflicts`
returns the empty result without invoking the speculative merge engine. -/
theorem overlap_filter_gates_merge
    (pullRequestFiles otherPullRequestFiles : List String)
    (mergeData : ConflictData) :
    ((checkForConflictsRun pullRequestFiles otherPullRequestFiles
        mergeData).2 = true ↔
      ∃ f ∈ pullRequestFiles, f ∈ otherPullRequestFiles) ∧
    ((¬ ∃ f ∈ pullRequestFiles, f ∈ otherPullRequestFiles) →
      checkForConflictsRun pullRequestFiles otherPullRequestFiles mergeData =
        ([], false)) := by
  have hiff : (overlappingFiles pullRequestFiles otherPullRequestFiles).isEmpty =
      true ↔ ¬ ∃ f ∈ pullRequestFiles, f ∈ otherPullRequestFiles := by
    rw [List.isEmpty_iff, overlappingFiles, List.filter_eq_nil_iff]
    constructor
    · rintro hall ⟨f, hf1, hf2⟩
      exact hall f hf1 (List.elem_iff.mpr hf2)
    · intro hno f hf hcon
      exact hno ⟨f, hf, List.elem_iff.mp hcon⟩
  constructor
  · constructor
    · intro h2
      by_contra hno
      rw [checkForConflictsRun, if_pos (hiff.mpr hno)] at h2
      simp at h2
    · intro hex
      rw [checkForConflictsRun, if_neg ?_]
      intro he
      exact (hiff.mp he) hex
  · intro hno
    rw [checkForConflictsRun, if_pos (hiff.mpr hno)]

/-- C5 (witness). -/
theorem overlap_filter_gates_merge_witness :
    checkForConflictsRun ["a.txt"] ["b.txt"]
        [("a.txt", CDValue.lineNums [1])] = ([], false) :=
  (overlap_filter_gates_merge ["a.txt"] ["b.txt"]
    [("a.txt", CDValue.lineNums [1])]).2 (by decide)

/-- C6: the reconciler requests, on the subject pull request, exactly the
distinct conflicting authors minus the subject's author and the existing
reviewer set; on each conflicting pull request it requests the subject's
author unless self-authored or already a reviewer; and — viewing requests
as (pull request, reviewer) pairs — no request is issued twice in a run
whose conflict records concern distinct other pull requests. -/
theorem reviewer_reconciler_requests (pullRequestAuthor : String)
    (pullRequestNumber : Nat) (existingReviewers : List String)
    (conflictArray : List ConflictRecord) :
    (∀ a, a ∈ requestReviews pullRequestAuthor existingReviewers
        conflictArray ↔
      ((∃ c ∈ conflictArray, c.author = a) ∧ a ≠ pullRequestAuthor ∧
        a ∉ existingReviewers)) ∧
    (∀ n r, (n, r) ∈ requestReviewsInConflictingPRs pullRequestAuthor
        conflictArray ↔
      (r = pullRequestAuthor ∧ ∃ c ∈ conflictArray, c.number = n ∧
        c.author ≠ pullRequestAuthor ∧ pullRequestAuthor ∉ c.reviewers)) ∧
    ((conflictArray.map fun c => c.number).Nodup →
      (∀ c ∈ conflictArray, c.number ≠ pullRequestNumber) →
      (((requestReviews pullRequestAuthor existingReviewers
            conflictArray).map fun a => (pullRequestNumber, a)) ++
        requestReviewsInConflictingPRs pullRequestAuthor
          conflictArray).Nodup) := by
  refine ⟨requestReviews_mem pullRequestAuthor existingReviewers conflictArray,
    requestReviewsInConflictingPRs_mem pullRequestAuthor conflictArray, ?_⟩
  intro hnodup hne
  rw [List.nodup_append]
  refine ⟨?_, ?_, ?_⟩
  · refine List.Nodup.map ?_ (jsSetDedup_nodup _)
    intro a b hab
    simpa using hab
  · have hsub := requestReviewsInConflictingPRs_fst_sublist pullRequestAuthor
      conflictArray
    exact (hnodup.sublist hsub).of_map Prod.fst
  · intro x hx1 hx2
    obtain ⟨a, _, rfl⟩ := List.mem_map.mp hx1
    rw [requestReviewsInConflictingPRs_mem] at hx2
    obtain ⟨_, c, hc, hcn, _⟩ := hx2
    exact hne c hc hcn

/-- Concrete conflict array for the reviewer-reconciler witness. -/
def conflictArrayC6 : List ConflictRecord :=
  [⟨"alice", [("f", CDValue.lineNums [1])], 2, "A", []⟩,
    ⟨"sub", [("g", CDValue.lineNums [2])], 3, "B", []⟩,
    ⟨"bob", [], 4, "C", ["sub"]⟩]

/-- C6 (witness). -/
theorem reviewer_reconciler_requests_witness :
    (((requestReviews "sub" ["eve"] conflictArrayC6).map
        fun a => (1, a)) ++
      requestReviewsInConflictingPRs "sub" conflictArrayC6).Nodup :=
  (reviewer_reconciler_requests "sub" 1 ["eve"] conflictArrayC6).2.2
    (by decide) (by decide)

/-- C7: the display formatter collapses a run of consecutive numbers into
a `start...end` range only when the run has at least three numbers:
`[5,6,7,10]` yields the compressed run for 5,6,7 and 10 separately,
`[5,7]` yields both numbers individually, `[5,6,7]` is the shortest run
that collapses, and `[5,6]` does not collapse. -/
theorem formatLineNumbers_run_boundary :
    formatLineNumbers [5, 6, 7, 10] = "5...7, 10" ∧
    formatLineNumbers [5, 7] = "5, 7" ∧
    formatLineNumbers [5, 6, 7] = "5...7" ∧
    formatLineNumbers [5, 6] = "5, 6" := by
  exact ⟨by decide, by decide, by decide, by decide⟩

/-- Environment where the checkout of the candidate's temporary ref fails
after a successful fetch. -/
def envC8cex : AttemptEnv :=
  ⟨false, false, false, true, false, false, MergeResult.clean, false, [],
    (fun _ => []), none, false⟩

/-- C8 (counterexample): an infrastructure failure during the attempt — a
checkout failure after a successful fetch — is swallowed by the outer
`catch`; `attemptMerge` returns the same clean-looking empty result, with
no error propagated, as a genuinely clean merge.  The run is not failed,
contradicting "fatal for the current run, never silently classified as a
clean outcome". -/
theorem attemptMerge_swallows_infrastructure_cex :
    attemptMerge envC8cex "other-branch" ⟨[]⟩ = (Except.ok [], ⟨[]⟩) ∧
    attemptMerge { envC8cex with checkoutFails := false } "other-branch"
        ⟨[]⟩ = (Except.ok [], ⟨[]⟩) := by
  exact ⟨rfl, rfl⟩

/-- C8 (amended): a merge attempt yields a non-empty conflict object only
when the inner merge signalled an automatic-merge failure (and no earlier
workspace operation failed); but any other workspace-operation failure
during the attempt is caught and logged, and — provided the `finally`
cleanup succeeds — the attempt returns the empty, clean-looking result
instead of failing the run. -/
theorem attemptMerge_conflict_only_on_auto_fail :
    (∀ (env : AttemptEnv) (otherBranch : String) (s0 : GitState)
      (d : ConflictData) (s1 : GitState),
      attemptMerge env otherBranch s0 = (Except.ok d, s1) → d ≠ [] →
        env.innerMerge = MergeResult.failAuto ∧ env.fetchFails = false ∧
          env.checkoutFails = false ∧ env.mergeMainFails = false ∧
          env.resetFails = false) ∧
    (∀ (env : AttemptEnv) (otherBranch : String) (s0 : GitState),
      env.checkoutFails = true → env.fetchFails = false →
      env.finallyResetFails = false →
      attemptMerge env otherBranch s0 = (Except.ok [], ⟨s0.refs⟩)) := by
  constructor
  · intro env otherBranch s0 d s1 h hne
    have hd : d = (attemptMergeBody env otherBranch s0).1 := by
      rw [attemptMerge] at h
      by_cases hf : env.finallyResetFails = true
      · rw [if_pos hf] at h
        exact absurd (congrArg Prod.fst h) (by simp)
      · rw [if_neg hf] at h
        by_cases hc : (attemptMergeBody env otherBranch s0).2.2.refs.contains
            (tmpRef otherBranch) = true
        · rw [if_pos hc] at h
          rw [Prod.mk.injEq] at h
          exact (Except.ok.inj h.1).symm
        · rw [if_neg hc] at h
          exact absurd (congrArg Prod.fst h) (by simp)
    rw [hd] at hne
    exact attemptMergeBody_ne_nil env otherBranch s0 hne
  · intro env otherBranch s0 hcf hff hfrf
    rw [attemptMerge]
    simp [attemptMergeBody, hcf, hff, hfrf]

/-- Environment of a genuine conflict, for the C8 witness. -/
def envC8w : AttemptEnv :=
  ⟨false, false, false, false, false, false, MergeResult.failAuto, false,
    ["conflicted.txt"], (fun _ => [3]), none, false⟩

/-- C8 (witness). -/
theorem attemptMerge_conflict_only_on_auto_fail_witness :
    envC8w.innerMerge = MergeResult.failAuto ∧ envC8w.fetchFails = false ∧
      envC8w.checkoutFails = false ∧ envC8w.mergeMainFails = false ∧
      envC8w.resetFails = false :=
  attemptMerge_conflict_only_on_auto_fail.1 envC8w "other" ⟨[]⟩
    [("conflicted.txt", CDValue.lineNums [3])] ⟨[]⟩ rfl (by decide)

/-- C9 (counterexample): the code recognises a conflict-start marker only
by the exact prefix `<<<<<<< HEAD`.  A line starting with the conflict-
start token `<<<<<<<` but with a different label is treated as content:
here `<<<<<<< foo` sits inside the "ours" block, is anchored in the
pristine file, and its 1-indexed line number (1) is emitted — so a line
number corresponding to a line bearing the conflict-start marker token is
included in the emitted set, contrary to the claim. -/
theorem marker_prefix_line_reported_cex :
    extractConflictingLineNumbers "<<<<<<< foo"
        "<<<<<<< HEAD\n<<<<<<< foo\n=======\nx\n>>>>>>> branch" = [1] ∧
    strStartsWith "<<<<<<< foo" "<<<<<<<" = true ∧
    (splitLines "<<<<<<< foo")[0]? = some "<<<<<<< foo" := by
  exact ⟨by decide, by decide, by decide⟩

/-- C9 (amended): the marker shapes the code actually recognises — lines
starting with `<<<<<<< HEAD`, `=======` or `>>>>>>>` — are pure structural
delimiters under both strategies: on a well-formed conflicted file each
extractor's output is determined entirely by the content blocks (per the
closed forms), and every line number emitted by the block-anchor strategy
points at a pristine line that is not of any marker shape. -/
theorem markers_structural_delimiters_amended (normal : List String)
    (segs : List Segment) (h : renderOk segs = true) :
    extract1Core normal (render segs) =
      ((oursBlocksOf segs).map (oursContribution normal)).flatten ∧
    extract2Core (render segs) = positionalLines 0 segs ∧
    (∀ n ∈ extract1Core normal (render segs),
      ∃ l, normal[n - 1]? = some l ∧ isMarkerLine l = false) := by
  refine ⟨extract1Core_render normal segs h, extract2Core_render segs h, ?_⟩
  intro n hn
  rw [extract1Core_render normal segs h, List.mem_flatten] at hn
  obtain ⟨contrib, hc, hn⟩ := hn
  rw [List.mem_map] at hc
  obtain ⟨block, hblock, rfl⟩ := hc
  obtain ⟨_, _, l, hl, hlblock⟩ := oursContribution_spec normal block n hn
  refine ⟨l, hl, ?_⟩
  have hcontent : contentOk l = true := by
    rw [oursBlocksOf, List.mem_filterMap] at hblock
    obtain ⟨seg, hseg, hsome⟩ := hblock
    cases seg with
    | plain _ => cases hsome
    | conflict r =>
      obtain rfl : r.ours = block := by simpa using hsome
      have hok : segmentOk (Segment.conflict r) = true :=
        (List.all_eq_true.mp h) _ hseg
      simp only [segmentOk, Bool.and_eq_true] at hok
      exact (List.all_eq_true.mp hok.1.1.1.1) l hlblock
  simpa [contentOk] using hcontent

/-- Concrete well-formed conflicted file for the C9 witness. -/
def segsC9 : List Segment :=
  [Segment.conflict ⟨["p"], ["q"], ">>>>>>> other"⟩]

/-- C9 (witness). -/
theorem markers_structural_delimiters_witness :
    extract2Core (render segsC9) = positionalLines 0 segsC9 :=
  (markers_structural_delimiters_amended ["p"] segsC9 (by decide)).2.1

/-- C10: the display formatter returns the empty string for a null or
undefined argument and for the empty list, so a file with no recovered
lines contributes no spurious text. -/
theorem formatLineNumbers_empty :
    formatLineNumbersOpt none = "" ∧ formatLineNumbersOpt (some []) = "" := by
  exact ⟨rfl, rfl⟩
